import Mathlib

/-!
Verification of the OASIS-Docs markdown-conversion pipeline
(`markdown_converter.py` and its sibling CLI variants).

Strings are modelled as `List Char` (`Str`), restricted to the content the
pipeline actually handles.  Each definition below is a shallow embedding of one
Python function of the source; the doc comment of a definition names the
function it embeds and records the semantic derivation for the regex-based
scanners (Python `re` with backtracking).
-/

namespace OasisConv

/-- Character strings of the modelled programs. -/
abbrev Str := List Char

/-- Coercion helper from Lean string literals to the model's strings. -/
def chars (s : String) : Str := s.toList

/-- Python's `\s` class and `str.strip()` whitespace, ASCII fragment
(space, tab, newline, carriage return, vertical tab, form feed).
The modelled documents are ASCII, so the further Unicode whitespace
accepted by Python never occurs. -/
def isPySpace (c : Char) : Bool :=
  c = ' ' || c = '\t' || c = '\n' || c = '\r' || c = '\x0b' || c = '\x0c'

/-- Drop leading Python whitespace (`str.lstrip()`). -/
def trimLeft (s : Str) : Str := s.dropWhile isPySpace

/-- Drop trailing Python whitespace (`str.rstrip()`). -/
def trimRight (s : Str) : Str := (s.reverse.dropWhile isPySpace).reverse

/-- Python `str.strip()`. -/
def pyStrip (s : Str) : Str := trimRight (trimLeft s)

/-- Boolean string-prefix test (`str.startswith` / regex literal match). -/
def startsWith : Str → Str → Bool
  | [], _ => true
  | _ :: _, [] => false
  | p :: ps, c :: cs => p = c && startsWith ps cs

/-- Split a string at the first occurrence of `pat`, returning the part before
the occurrence and the part after it.  `none` when `pat` does not occur.
This is the semantics of a leftmost regex match of a literal pattern. -/
def splitAtSubstr (pat : Str) : Str → Option (Str × Str)
  | [] => if startsWith pat [] then some ([], []) else none
  | c :: cs =>
    if startsWith pat (c :: cs) then some ([], (c :: cs).drop pat.length)
    else
      match splitAtSubstr pat cs with
      | some (a, b) => some (c :: a, b)
      | none => none

/-- Substring test (Python `pat in s`). -/
def containsSub (pat s : Str) : Bool := (splitAtSubstr pat s).isSome

/-- Line-break characters recognised by Python `str.splitlines()`
(ASCII/Latin-1 fragment; the two Unicode separators are included for
completeness). -/
def isLineBreakChar (c : Char) : Bool :=
  c = '\n' || c = '\r' || c = '\x0b' || c = '\x0c' ||
  c = '\x1c' || c = '\x1d' || c = '\x1e' || c = '\x85' ||
  c = '\u2028' || c = '\u2029'

/-- Prepend a character to the first line of a non-empty line list. -/
def consHead (c : Char) : List Str → List Str
  | [] => [[c]]
  | l :: ls => (c :: l) :: ls

/-- Character-by-character scan producing the raw field structure underlying
`str.splitlines()`: every line-break character ends a field, except that the
`'\n'` of a `"\r\n"` pair (tracked by the `afterCR` flag) is absorbed into
the preceding `'\r'` break. -/
def splitBreaksAux : Bool → Str → List Str
  | _, [] => [[]]
  | afterCR, c :: cs =>
    if c = '\n' then
      if afterCR then splitBreaksAux false cs
      else [] :: splitBreaksAux false cs
    else if isLineBreakChar c then [] :: splitBreaksAux (c = '\r') cs
    else consHead c (splitBreaksAux false cs)

/-- Split on every line boundary, keeping a (possibly empty) final field,
with `"\r\n"` counted as a single boundary. -/
def splitBreaks (s : Str) : List Str := splitBreaksAux false s

/-- Drop a single trailing empty field (a final line terminator produces no
extra empty line in `str.splitlines()`). -/
def dropTrailingEmpty : List Str → List Str
  | [] => []
  | [l] => if l.isEmpty then [] else [l]
  | l :: ls => l :: dropTrailingEmpty ls

/-- Python `str.splitlines()`. -/
def splitLines (s : Str) : List Str := dropTrailingEmpty (splitBreaks s)

/-- Python `'\n'.join(lines)`. -/
def joinNl : List Str → Str
  | [] => []
  | [l] => l
  | l :: ls => l ++ '\n' :: joinNl ls

/-! ## Metadata extraction (`MetadataExtractor`, markdown_converter.py:177-200) -/

/-- Largest index whose element differs from `ch` (`none` when every element
equals `ch`).  This realises the backtracking order of a greedy repetition
scanned from its longest attempt downward: the first retraction that
succeeds is the latest admissible position. -/
def lastIdxNe (ch : Char) : Str → Option Nat
  | [] => none
  | c :: cs =>
    match lastIdxNe ch cs with
    | some i => some (i + 1)
    | none => if c = ch then none else some 0

/-- The capture of `\s+(.+)$` matched directly after a `'#'` standing at a
line start, `cs` being the text after that `'#'` (no DOTALL, so `'.'` never
matches `'\n'`; MULTILINE, so `$` holds at the end of the text and before
every `'\n'`).  The greedy `\s+` first consumes the maximal whitespace run —
`\s` matches `'\n'`, so the run may cross line ends.  If text remains after
the run, its first character is non-whitespace, hence not `'\n'`, and the
greedy `(.+)$` captures the remainder of the line on which the run stopped.
If the run reaches the end of the text, `\s+` backtracks: it retracts to the
latest position strictly inside the run whose character is not `'\n'` (the
first `'.'` must match there) while still consuming at least one character,
and the capture is that whitespace tail up to the next `'\n'` or the end;
when no such position exists the attempt fails. -/
def titleCapture (cs : Str) : Option Str :=
  if (cs.takeWhile isPySpace).isEmpty then none
  else if (cs.drop (cs.takeWhile isPySpace).length).isEmpty then
    match lastIdxNe '\n' cs with
    | some k =>
      if k = 0 then none
      else some ((cs.drop k).takeWhile (fun c => c != '\n'))
    | none => none
  else some ((cs.drop (cs.takeWhile isPySpace).length).takeWhile (fun c => c != '\n'))

/-- The scan of `re.search(r'^#\s+(.+)$', content, re.MULTILINE)`: positions
are tried left to right; a match starts at a `'#'` placed at the start of the
subject (`atStart`) or just after a `'\n'`, whose tail admits `\s+(.+)$`.
A failed attempt consumes nothing: scanning resumes at the next
character. -/
def extractTitleSearch (atStart : Bool) : Str → Option Str
  | [] => none
  | c :: cs =>
    if atStart && c == '#' then
      match titleCapture cs with
      | some t => some t
      | none => extractTitleSearch (c == '\n') cs
    else extractTitleSearch (c == '\n') cs

/-- `MetadataExtractor._extract_title`: `match.group(1).strip()` of the
multiline regex search; `"-"` when there is no match. -/
def extractTitle (content : Str) : Str :=
  match extractTitleSearch true content with
  | some t => pyStrip t
  | none => chars "-"

/-- The title regex can match at position `n` of the subject: walking `n`
characters in — the flag tracks whether the current position is the subject
start or sits just after a `'\n'`, i.e. whether `re.MULTILINE` `^` holds
there — the character at position `n` is `'#'`, `^` holds at it, and its
tail admits `\s+(.+)$`; `false` when `n` is out of range. -/
def attemptOkF (atStart : Bool) : Str → Nat → Bool
  | [], _ => false
  | c :: cs, 0 => atStart && c == '#' && (titleCapture cs).isSome
  | c :: cs, n + 1 => attemptOkF (c == '\n') cs n

/-- `attemptOkF` for a whole subject (`^` matches at position `0`). -/
def attemptOk (content : Str) (n : Nat) : Bool := attemptOkF true content n

/-- The literal token `"description:"` of the description regex. -/
def descToken : Str := chars "description:"

/-- The literal token `"-->"` closing an HTML comment. -/
def arrowToken : Str := chars "-->"

/-- The literal token `"<!--"` opening an HTML comment. -/
def commentOpen : Str := chars "<!--"

/-- Scan for the first occurrence of `"description:"` that is followed
(somewhere later) by `"-->"`; returns the part before the token and the part
after it.  This realises the lazy `.*?` between `<!--` and `description:` in
`re.search(r'<!--.*?description:\s*(.*?)\s*-->', content, re.DOTALL)`:
backtracking extends the lazy gap past any `description:` token that has no
subsequent `-->`. -/
def findQualDesc : Str → Option (Str × Str)
  | [] => none
  | c :: cs =>
    if startsWith descToken (c :: cs) && containsSub arrowToken ((c :: cs).drop 12) then
      some ([], (c :: cs).drop 12)
    else
      match findQualDesc cs with
      | some (a, b) => some (c :: a, b)
      | none => none

/-- `MetadataExtractor._extract_description`, i.e.
`re.search(r'<!--.*?description:\s*(.*?)\s*-->', content, re.DOTALL)` followed
by `.group(1).strip()`, else `"-"`.

Backtracking semantics of the pattern: the match starts at the first `<!--`
that is followed by a `description:` that is in turn followed by a `-->`; the
lazy gap then selects the first such `description:` after the first `<!--`
(no other `<!--` can yield an earlier one); finally
`\s*(.*?)\s*-->` captures exactly the text between the token and the first
subsequent `-->`, with surrounding whitespace absorbed by the two `\s*`, so
the stripped group equals the stripped text between the token and that
`-->`. -/
def extractDescription (content : Str) : Str :=
  match splitAtSubstr commentOpen content with
  | none => chars "-"
  | some (_, rest) =>
    match findQualDesc rest with
    | none => chars "-"
    | some (_, after) =>
      match splitAtSubstr arrowToken after with
      | some (mid, _) => pyStrip mid
      | none => chars "-"

/-! ## TOC normalisation (`TOCProcessor.process`, markdown_converter.py:519-549) -/

/-- Test of `re.match(r'^- \[.*\]\(.*\)', line)`: the line starts with
`"- ["`, and somewhere after that the two adjacent characters `"]("` occur,
with a `')'` occurring after them (a match of a literal after greedy `.*`
exists exactly when some occurrence does, and an occurrence after the first
`"]("` is also an occurrence after any earlier one). -/
def isTocEntry (l : Str) : Bool :=
  startsWith (chars "- [") l &&
    (match splitAtSubstr (chars "](") (l.drop 3) with
     | some (_, b) => containsSub (chars ")") b
     | none => false)

/-- Lower-case image of a string under Python's `re.IGNORECASE` comparison
(ASCII fragment). -/
def lowerStr (s : Str) : Str := s.map Char.toLower

/-- Test of `re.match(r'^\s*#+\s*Table of Contents\s*$', line, re.IGNORECASE)`:
optional leading whitespace, at least one `'#'`, optional whitespace, the
literal title compared case-insensitively, then only whitespace to the end of
the line. -/
def isTocTitle (l : Str) : Bool :=
  let l1 := l.dropWhile isPySpace
  let hashes := l1.takeWhile (fun c => c = '#')
  let l2 := (l1.drop hashes.length).dropWhile isPySpace
  !hashes.isEmpty &&
    startsWith (chars "table of contents") (lowerStr l2) &&
    (l2.drop 17).all isPySpace

/-- Test of `re.search(r'^(#+)\s+.*', lines[0])` (anchored by `^` without
`re.MULTILINE`): the line starts with a maximal run of `'#'` characters
followed by at least one whitespace character; the heading level is the length
of that run. -/
def headingHashLevel (l : Str) : Option Nat :=
  let hashes := l.takeWhile (fun c => c = '#')
  if hashes.isEmpty then none
  else
    match l.drop hashes.length with
    | c :: _ => if isPySpace c then some hashes.length else none
    | [] => none

/-- The heading level chosen by `TOCProcessor.process` for the synthesized
title: `len(first_heading_match.group(1)) + 1` when the first line is a
heading, else the default `2` (also used when the file has no lines). -/
def tocLevel (ls : List Str) : Nat :=
  match ls with
  | [] => 2
  | l :: _ =>
    match headingHashLevel l with
    | some k => k + 1
    | none => 2

/-- The inserted line `'#' * heading_level + ' Table of Contents'`. -/
def mkTocTitle (lvl : Nat) : Str :=
  List.replicate lvl '#' ++ chars " Table of Contents"

/-- `TOCProcessor.process` as a transformation of the markdown file content:
when some line is a TOC entry and no line is a TOC title, insert the
synthesized title immediately before the first entry line and re-join with
`'\n'`; otherwise the file is left untouched. -/
def tocProcess (content : Str) : Str :=
  let ls := splitLines content
  match ls.findIdx? isTocEntry with
  | none => content
  | some i =>
    if ls.any isTocTitle then content
    else joinNl (ls.take i ++ mkTocTitle (tocLevel ls) :: ls.drop i)

/-! ## The HTML tree (BeautifulSoup documents)

A parsed document is a tree of element tags and text nodes.  The soup root is
itself an element (BeautifulSoup's `[document]` node); `img` elements are void
in parsed HTML and therefore childless. -/

/-- A BeautifulSoup node: an element with a tag name, attributes and children,
or a navigable text string. -/
inductive Node where
  | text (t : Str)
  | elem (tag : String) (attrs : List (String × Str)) (children : List Node)

/-- Attribute lookup (`tag.get(key)` / `tag.has_attr(key)`). -/
def getAttrOpt : List (String × Str) → String → Option Str
  | [], _ => none
  | (k, v) :: rest, key => if k = key then some v else getAttrOpt rest key

/-- Attribute lookup with the empty-string default (`tag.get(key, '')`). -/
def getAttr (attrs : List (String × Str)) (key : String) : Str :=
  (getAttrOpt attrs key).getD []

/-- Attribute assignment (`tag[key] = v`): replace the value in place when the
key is present, else append the new attribute. -/
def setAttr : List (String × Str) → String → Str → List (String × Str)
  | [], key, v => [(key, v)]
  | (k, w) :: rest, key, v =>
    if k = key then (k, v) :: rest else (k, w) :: setAttr rest key v

/-- Attribute deletion (`del tag[key]`). -/
def delAttr : List (String × Str) → String → List (String × Str)
  | [], _ => []
  | (k, w) :: rest, key =>
    if k = key then delAttr rest key else (k, w) :: delAttr rest key

mutual
/-- Replace the first element (in document pre-order) with tag `t` by applying
`f` to its attributes and children; the flag reports whether such an element
was found.  This is `soup.find(t)` followed by a mutation of the found tag. -/
def mapFirstTagNode (t : String)
    (f : List (String × Str) → List Node → List (String × Str) × List Node) :
    Node → Bool × Node
  | .text s => (false, .text s)
  | .elem tag attrs cs =>
    if tag = t then
      let r := f attrs cs
      (true, .elem tag r.1 r.2)
    else
      let r := mapFirstTagList t f cs
      (r.1, .elem tag attrs r.2)

def mapFirstTagList (t : String)
    (f : List (String × Str) → List Node → List (String × Str) × List Node) :
    List Node → Bool × List Node
  | [] => (false, [])
  | c :: cs =>
    let r := mapFirstTagNode t f c
    if r.1 then (true, r.2 :: cs)
    else
      let rs := mapFirstTagList t f cs
      (rs.1, r.2 :: rs.2)
end

mutual
/-- Whether the document contains an element with tag `t`
(`soup.find(t) is not None`). -/
def hasTagNode (t : String) : Node → Bool
  | .text _ => false
  | .elem tag _ cs => tag == t || hasTagList t cs

def hasTagList (t : String) : List Node → Bool
  | [] => false
  | c :: cs => hasTagNode t c || hasTagList t cs
end

mutual
/-- Remove every element with tag `t` together with its subtree
(`for x in soup.find_all(t): x.decompose()`), keeping other nodes. -/
def removeTagNode (t : String) : Node → List Node
  | .text s => [.text s]
  | .elem tag attrs cs =>
    if tag = t then [] else [.elem tag attrs (removeTagList t cs)]

def removeTagList (t : String) : List Node → List Node
  | [] => []
  | c :: cs => removeTagNode t c ++ removeTagList t cs
end

/-! ## URL schemes and asset filenames
(`HtmlPostProcessor._is_external_url`, `._is_oasis_logo`,
`._process_single_image`, markdown_converter.py:405-437) -/

/-- A character allowed in a URL scheme by `urllib.parse`. -/
def isSchemeChar (c : Char) : Bool :=
  c.isAlpha || c.isDigit || c = '+' || c = '-' || c = '.'

/-- Split off the URL scheme as `urllib.parse.urlparse` does: a non-empty run
of scheme characters starting with a letter and followed by `':'`; the scheme
is lower-cased.  `none` when the URL has no scheme. -/
def splitScheme (u : Str) : Option (Str × Str) :=
  let run := u.takeWhile isSchemeChar
  match u with
  | c :: _ =>
    if c.isAlpha && !run.isEmpty && startsWith (chars ":") (u.drop run.length) then
      some (lowerStr run, u.drop (run.length + 1))
    else none
  | [] => none

/-- `HtmlPostProcessor._is_external_url`:
`urlparse(url).scheme in ('http', 'https')`. -/
def isExternalUrl (u : Str) : Bool :=
  match splitScheme u with
  | some (s, _) => s == chars "http" || s == chars "https"
  | none => false

/-- `HtmlPostProcessor._is_oasis_logo`: `"OASISLogo" in url`. -/
def isOasisLogo (u : Str) : Bool := containsSub (chars "OASISLogo") u

/-- `urlparse(url).path`: drop the scheme, then the `//netloc` part (up to the
first of `/`, `?`, `#`), then cut at the fragment `#` and the query `?`. -/
def urlparsePath (u : Str) : Str :=
  let rest := match splitScheme u with | some (_, r) => r | none => u
  let rest2 :=
    if startsWith (chars "//") rest then
      (rest.drop 2).dropWhile (fun c => c ≠ '/' && c ≠ '?' && c ≠ '#')
    else rest
  ((rest2.takeWhile (fun c => c ≠ '#')).takeWhile (fun c => c ≠ '?'))

/-- Split a string on a separator character, keeping all fields. -/
def splitOnChar (sep : Char) : Str → List Str
  | [] => [[]]
  | c :: cs =>
    if c = sep then [] :: splitOnChar sep cs else consHead c (splitOnChar sep cs)

/-- `pathlib.Path(p).name`: the last path component, after dropping empty and
`"."` components; empty when no component remains. -/
def pathlibName (p : Str) : Str :=
  let comps := (splitOnChar '/' p).filter (fun c => !c.isEmpty && !(c == chars "."))
  (comps.getLast?).getD []

/-- `Path(urlparse(src).path).name or 'image.png'`: the local filename derived
for an image URL. -/
def derivedFilename (src : Str) : Str :=
  let n := pathlibName (urlparsePath src)
  if n.isEmpty then chars "image.png" else n

/-! ## Image localisation (`HtmlPostProcessor._process_images` /
`._process_single_image`, markdown_converter.py:384-428) -/

/-- The per-conversion environment of the image step: the network oracle
(`None` models a failed request), the `cache_images` flag and the
`images_subdir` configuration value. -/
structure ImgEnv where
  fetch : Str → Option Str
  cacheImages : Bool
  imagesSubdir : Str

/-- The asset resolution inside `_process_single_image`: derive the local
filename, skip the network when the file exists and caching is enabled,
otherwise fetch (counted as one network request) and write the file.
Returns the updated file set, the number of network requests issued, and
`some relativePath` on success or `none` when the fetch failed (the caller
then drops the image).  The file set holds the filenames present in the
destination images directory. -/
def ensureImage (env : ImgEnv) (fs : List Str) (src : Str) :
    List Str × Nat × Option Str :=
  let filename := derivedFilename src
  let rel := env.imagesSubdir ++ '/' :: filename
  if !(fs.contains filename) || !env.cacheImages then
    match env.fetch src with
    | some _ => (filename :: fs, 1, some rel)
    | none => (fs, 1, none)
  else (fs, 0, some rel)

/-- Result of the image pass over a subtree: destination-directory contents,
number of network requests, and the replacement node list. -/
structure ImgResult where
  fs : List Str
  fetches : Nat
  nodes : List Node

mutual
/-- `_process_images`: every `img` element whose `src` is an external http(s)
URL and not the OASIS logo is resolved through `ensureImage`; on success its
`src` is rewritten to the relative local path, on failure the element is
removed (`img_tag.decompose()`).  All other nodes are untouched.  The
concurrent fan-out of the source is sequentialised in document order; each
image element only ever receives the result of its own fetch, so the final
tree does not depend on completion order.  `img` elements are leaves (void
elements cannot nest in parsed HTML). -/
def processImgNode (env : ImgEnv) (fs : List Str) : Node → ImgResult
  | .text t => ⟨fs, 0, [.text t]⟩
  | .elem tag attrs cs =>
    if tag = "img" then
      let src := getAttr attrs "src"
      if isExternalUrl src && !isOasisLogo src then
        match ensureImage env fs src with
        | (fs1, n, some rel) => ⟨fs1, n, [.elem tag (setAttr attrs "src" rel) cs]⟩
        | (fs1, n, none) => ⟨fs1, n, []⟩
      else ⟨fs, 0, [.elem tag attrs cs]⟩
    else
      let r := processImgList env fs cs
      ⟨r.fs, r.fetches, [.elem tag attrs r.nodes]⟩

def processImgList (env : ImgEnv) (fs : List Str) : List Node → ImgResult
  | [] => ⟨fs, 0, []⟩
  | c :: cs =>
    let r1 := processImgNode env fs c
    let r2 := processImgList env r1.fs cs
    ⟨r2.fs, r1.fetches + r2.fetches, r1.nodes ++ r2.nodes⟩
end

/-- The image pass applied to the document root (the soup `[document]` node,
which is never an `img`). -/
def processImagesDoc (env : ImgEnv) (fs : List Str) : Node → List Str × Nat × Node
  | .text t => (fs, 0, .text t)
  | .elem tag attrs cs =>
    let r := processImgList env fs cs
    (r.fs, r.fetches, .elem tag attrs r.nodes)

/-! ## Bare-URL autolinking (`HtmlPostProcessor._convert_urls_to_links`,
markdown_converter.py:439-473) -/

/-- A segment of a text node split by the URL regex `(https?://\S+)`:
plain text between matches, or one matched URL. -/
inductive Seg where
  | str (t : Str)
  | link (u : Str)
  deriving DecidableEq

/-- A match of `https?://\S+` anchored at the start of `s`: the literal prefix
(`https://` preferred by the greedy `s?`, the alternatives being mutually
exclusive) followed by a maximal non-empty run of non-whitespace characters.
Returns the matched URL and the remainder of the string. -/
def urlTokenAt (s : Str) : Option (Str × Str) :=
  if startsWith (chars "https://") s then
    let after := s.drop 8
    let tok := after.takeWhile (fun c => !isPySpace c)
    if tok.isEmpty then none else some (chars "https://" ++ tok, after.drop tok.length)
  else if startsWith (chars "http://") s then
    let after := s.drop 7
    let tok := after.takeWhile (fun c => !isPySpace c)
    if tok.isEmpty then none else some (chars "http://" ++ tok, after.drop tok.length)
  else none

/-- The split of a text node along the non-overlapping leftmost matches of
`url_pattern.finditer`, dropping empty in-between text (the source only
appends `text_node[last_index:start]` when `start > last_index`, and the tail
only when text remains).  `acc` holds the pending plain text in reverse; the
fuel is the length of the scanned string, which every step decreases, so the
fuel-exhausted case is unreachable from `splitUrls`. -/
def splitUrlsAux : Nat → Str → Str → List Seg
  | 0, acc, rest => if (acc.reverse ++ rest).isEmpty then [] else [.str (acc.reverse ++ rest)]
  | _ + 1, acc, [] => if acc.isEmpty then [] else [.str acc.reverse]
  | fuel + 1, acc, c :: cs =>
    match urlTokenAt (c :: cs) with
    | some (u, rest) =>
      (if acc.isEmpty then [] else [.str acc.reverse]) ++ .link u :: splitUrlsAux fuel [] rest
    | none => splitUrlsAux fuel (c :: acc) cs

/-- The segments the autolink loop produces for one text node. -/
def splitUrls (s : Str) : List Seg := splitUrlsAux s.length [] s

/-- Whether `url_pattern.search` succeeds on a text node, i.e. a URL token
starts at some position (this is how `find_all(string=url_pattern)` selects
the text nodes to rewrite). -/
def hasUrlToken : Str → Bool
  | [] => false
  | c :: cs => (urlTokenAt (c :: cs)).isSome || hasUrlToken cs

/-- `soup.new_tag('a', href=url, target='_blank', rel='noopener noreferrer')`
with `a_tag.string = url`. -/
def aLinkTag (u : Str) : Node :=
  .elem "a" [("href", u), ("target", chars "_blank"), ("rel", chars "noopener noreferrer")]
    [.text u]

/-- The replacement node for one segment: plain text stays a text node, a URL
becomes the link element. -/
def segToNode : Seg → Node
  | .str x => .text x
  | .link u => aLinkTag u

/-- The node list `new_content` built by the autolink loop for one text node. -/
def segNodes (t : Str) : List Node := (splitUrls t).map segToNode

/-- The characters a segment carries (the visible text of a plain segment or
of a produced link). -/
def segStr : Seg → Str
  | .str t => t
  | .link u => u

/-- The parent tags skipped by the autolink step
(`text_node.parent.name in ['a', 'code', 'pre']`). -/
def isSkipParent (tag : String) : Bool :=
  tag == "a" || tag == "code" || tag == "pre"

mutual
/-- `_convert_urls_to_links`.  For each collected text node that matches the
URL regex and whose parent is not a link or code element, the source runs
`parent.insert_before(item, text_node)` for every produced segment and then
extracts the text node.  BeautifulSoup's `insert_before` inserts its
arguments *immediately before the tag it is called on* — here the *parent* —
so the segments end up as preceding siblings of the parent element and the
text node is removed from the parent.  `convertUrlsNode` therefore returns
the nodes hoisted before the processed node together with the rewritten node
itself.  Hoisted nodes of a child are placed inside the current element,
immediately before that child; hoisted nodes of the element's own text
children are propagated upward. -/
def convertUrlsNode : Node → List Node × Node
  | .text t => ([], .text t)
  | .elem tag attrs cs =>
    let r := convertUrlsList tag cs
    (r.1, .elem tag attrs r.2)

def convertUrlsList (tag : String) : List Node → List Node × List Node
  | [] => ([], [])
  | c :: cs =>
    let rest := convertUrlsList tag cs
    match c with
    | .text t =>
      if !isSkipParent tag && hasUrlToken t then
        (segNodes t ++ rest.1, rest.2)
      else (rest.1, .text t :: rest.2)
    | .elem t2 a2 cs2 =>
      let r := convertUrlsNode (.elem t2 a2 cs2)
      (rest.1, r.1 ++ r.2 :: rest.2)
end

/-- The autolink step on the soup root.  A text node directly under the root
would make the source call `insert_before` on the parentless root, raising
`ValueError`; that situation is modelled by `none`. -/
def convertUrlsDoc (doc : Node) : Option Node :=
  let r := convertUrlsNode doc
  if r.1.isEmpty then some r.2 else none

/-! ## Logo insertion (`HtmlPostProcessor._add_oasis_logo`,
markdown_converter.py:475-479) -/

mutual
/-- Match of `soup.body.find('img', src=lambda x: x and 'OASISLogo' in x)`
over a subtree: an `img` element whose `src` attribute contains the marker
`"OASISLogo"` (a missing or empty `src` never matches). -/
def hasLogoNode : Node → Bool
  | .text _ => false
  | .elem tag attrs cs =>
    (tag == "img" && containsSub (chars "OASISLogo") (getAttr attrs "src")) || hasLogoList cs

def hasLogoList : List Node → Bool
  | [] => false
  | c :: cs => hasLogoNode c || hasLogoList cs
end

/-- The element parsed from `ConversionConfig.logo_img_tag`
(`BeautifulSoup(context.config.logo_img_tag, 'html.parser').img`). -/
def logoImg : Node :=
  .elem "img"
    [("alt", chars "OASIS Logo"),
     ("src", chars "https://docs.oasis-open.org/templates/OASISLogo-v3.0.png")] []

/-- The mutation `_add_oasis_logo` performs on the found body: insert the
configured logo element as the first child unless an image referencing the
logo marker already exists among the descendants. -/
def logoInsertStep (attrs : List (String × Str)) (cs : List Node) :
    List (String × Str) × List Node :=
  (attrs, if hasLogoList cs then cs else logoImg :: cs)

/-- `_add_oasis_logo`: when the document has a `body` element and no image
referencing the logo marker exists among its descendants, insert the
configured logo element as the first child of the body
(`soup.body.insert(0, logo_soup.img)`). -/
def addOasisLogo (doc : Node) : Node :=
  (mapFirstTagNode "body" logoInsertStep doc).2

/-! ## Meta-tag injection (`HtmlPostProcessor._add_meta_tags`,
markdown_converter.py:359-382) -/

/-- `soup.new_tag('meta', attrs={'name': name, 'content': content})`. -/
def metaNameTag (name : String) (content : Str) : Node :=
  .elem "meta" [("name", chars name), ("content", content)] []

/-- The fixed `meta_tags` list of `_add_meta_tags`. -/
def metaPairs : List (String × String) :=
  [("viewport", "width=device-width, initial-scale=1.0"),
   ("charset", "utf-8"),
   ("generator", "Enterprise Markdown Converter"),
   ("author", "OASIS Technical Committee")]

/-- One fixed meta tag; the charset entry uses the dedicated `charset`
attribute (`soup.new_tag('meta', charset=content)`). -/
def mkMetaTag (p : String × String) : Node :=
  if p.1 = "charset" then .elem "meta" [("charset", chars p.2)] []
  else metaNameTag p.1 (chars p.2)

/-- The transformation `_add_meta_tags` applies to the children of `head`:
first the description tag is inserted at position 0 (only when the
description differs from the sentinel `"-"`), then each fixed tag is inserted
at position 0 in the listed order. -/
def metaInject (desc : Str) (head : List Node) : List Node :=
  let h1 := if desc ≠ chars "-" then metaNameTag "description" desc :: head else head
  metaPairs.foldl (fun acc p => mkMetaTag p :: acc) h1

/-- `_add_meta_tags` on the document: a no-op when there is no `head`
element, else the children of the first `head` are rewritten. -/
def addMetaTagsDoc (desc : Str) (doc : Node) : Node :=
  (mapFirstTagNode "head" (fun attrs cs => (attrs, metaInject desc cs)) doc).2

/-! ## Stylesheet linking (`HtmlPostProcessor._inject_custom_styles`,
markdown_converter.py:481-497) -/

/-- The `href` of the injected stylesheet link:
`os.path.relpath(styles_dir / css, output_file.parent)` where
`styles_dir = output_file.parent / 'styles'`, under the default
configuration (`styles_subdir='styles'`,
`style_css_filename='markdown-styles-v1.8.1-cn_final.css'`). -/
def styleRelHref : Str := chars "styles/markdown-styles-v1.8.1-cn_final.css"

/-- `soup.new_tag('link', rel='stylesheet', href=stylesheet_relative)`. -/
def styleLinkTag : Node :=
  .elem "link" [("rel", chars "stylesheet"), ("href", styleRelHref)] []

/-- `_inject_custom_styles`: return unchanged when the document has no
`head`; otherwise remove every `style` element and append the stylesheet
link to the children of the first `head`. -/
def injectCustomStyles (doc : Node) : Node :=
  if hasTagNode "head" doc then
    (mapFirstTagNode "head" (fun attrs cs => (attrs, cs ++ [styleLinkTag]))
      (match doc with
       | .text s => .text s
       | .elem tag attrs cs => .elem tag attrs (removeTagList "style" cs))).2
  else doc

/-! ## Structural repair (`HtmlPostProcessor._optimize_html_structure`,
markdown_converter.py:499-513) -/

mutual
/-- First pass: delete the inline `style` attribute of every `hr` element. -/
def stripHrStyleNode : Node → Node
  | .text s => .text s
  | .elem tag attrs cs =>
    .elem tag (if tag = "hr" then delAttr attrs "style" else attrs) (stripHrStyleList cs)

def stripHrStyleList : List Node → List Node
  | [] => []
  | c :: cs => stripHrStyleNode c :: stripHrStyleList cs
end

/-- `not img.get('alt')`: the `alt` attribute is missing or empty. -/
def altMissing (attrs : List (String × Str)) : Bool :=
  match getAttrOpt attrs "alt" with
  | none => true
  | some v => v.isEmpty

mutual
/-- Third pass: give every image without usable alt text the default
`'Image'`. -/
def fixImgAltNode : Node → Node
  | .text s => .text s
  | .elem tag attrs cs =>
    .elem tag (if tag = "img" && altMissing attrs then setAttr attrs "alt" (chars "Image") else attrs)
      (fixImgAltList cs)

def fixImgAltList : List Node → List Node
  | [] => []
  | c :: cs => fixImgAltNode c :: fixImgAltList cs
end

/-- `_optimize_html_structure`: strip `hr` inline styles, add `lang='en'` to
the first `html` element when it has no `lang` attribute, and default missing
or empty image alt text to `'Image'`. -/
def optimizeHtmlStructure (doc : Node) : Node :=
  fixImgAltNode
    ((mapFirstTagNode "html"
      (fun attrs cs =>
        ((if (getAttrOpt attrs "lang").isSome then attrs else setAttr attrs "lang" (chars "en")), cs))
      (stripHrStyleNode doc)).2)

/-! ## The pipeline orchestrator (`EnterpriseMarkdownConverter.convert` and the
processor `process` methods, markdown_converter.py:134-175, 206-220, 276-357,
519-549, 555-579, 599-643)

External effects are oracles in the conversion state: file contents, the
network results for the stylesheet URL, and the outcomes of the external
`prettier` and `pandoc` invocations.  A raised `ConversionError` is an error
value; the orchestrator re-raises the first stage failure, so stages after a
failed one never run. -/

/-- The stage that raised the aborting `ConversionError`. -/
inductive PipeError where
  | metadataError
  | stylesheetError
  | formatError
  | pandocError
  | postprocessError
  deriving DecidableEq

/-- The conversion state: the source file (`none` = unreadable), the
stylesheet file's presence and the network result for its URL, oracles for
the external formatter and renderer, the image-step environment and the
destination images directory, the extracted metadata, the rendered temporary
document, and the produced output. -/
structure PipeWorld where
  mdContent : Option Str
  styleExists : Bool
  fetchStyle : Option Str
  formatOracle : Str → Option Str
  renderOracle : Str → Option Node
  imgEnv : ImgEnv
  imgFs : List Str
  title : Str
  desc : Str
  tempDoc : Option Node
  outputDoc : Option Node
  pandocRan : Bool
  outputWritten : Bool

/-- `MetadataExtractor.process`: read the source file (an unreadable file is
a fatal `ConversionError`) and store the extracted description and title. -/
def metadataStage (w : PipeWorld) : PipeWorld × Option PipeError :=
  match w.mdContent with
  | none => (w, some .metadataError)
  | some c =>
    ({ w with desc := extractDescription c, title := extractTitle c }, none)

/-- `StylesheetManager.process`: nothing to do when the stylesheet file
exists; otherwise download it (a failed fetch raises `ConversionError`; the
follow-up git commit is non-fatal and outside the model). -/
def stylesheetStage (w : PipeWorld) : PipeWorld × Option PipeError :=
  if w.styleExists then (w, none)
  else
    match w.fetchStyle with
    | some _ => ({ w with styleExists := true }, none)
    | none => (w, some .stylesheetError)

/-- `TOCProcessor.process`: rewrite the source file through `tocProcess`. -/
def tocStage (w : PipeWorld) : PipeWorld × Option PipeError :=
  ({ w with mdContent := w.mdContent.map tocProcess }, none)

/-- `MarkdownFormatter.process`: run the external formatter on the source
file; a non-zero exit is fatal. -/
def formatStage (w : PipeWorld) : PipeWorld × Option PipeError :=
  match w.mdContent with
  | none => (w, some .formatError)
  | some c =>
    match w.formatOracle c with
    | some c2 => ({ w with mdContent := some c2 }, none)
    | none => (w, some .formatError)

/-- `PandocConverter.process`: a missing stylesheet aborts before the
renderer is invoked; otherwise the external renderer runs (recorded in
`pandocRan`) and its output becomes the temporary document, a non-zero exit
being fatal. -/
def pandocStage (w : PipeWorld) : PipeWorld × Option PipeError :=
  if !w.styleExists then (w, some .pandocError)
  else
    match w.mdContent with
    | none => (w, some .pandocError)
    | some md =>
      let w1 := { w with pandocRan := true }
      match w.renderOracle md with
      | some doc => ({ w1 with tempDoc := some doc }, none)
      | none => (w1, some .pandocError)

/-- `HtmlPostProcessor.process`: apply, in order, meta-tag injection, image
localisation, bare-URL autolinking (whose `ValueError` aborts the stage),
logo insertion, stylesheet linking and structural repair, then write the
output file and delete the temporary one. -/
def postprocessStage (w : PipeWorld) : PipeWorld × Option PipeError :=
  match w.tempDoc with
  | none => (w, some .postprocessError)
  | some doc =>
    let d1 := addMetaTagsDoc w.desc doc
    let r := processImagesDoc w.imgEnv w.imgFs d1
    match convertUrlsDoc r.2.2 with
    | none => ({ w with imgFs := r.1 }, some .postprocessError)
    | some d3 =>
      let d6 := optimizeHtmlStructure (injectCustomStyles (addOasisLogo d3))
      ({ w with imgFs := r.1, tempDoc := none, outputDoc := some d6,
                outputWritten := true }, none)

/-- Short-circuiting stage composition: a stage only runs when every earlier
stage succeeded. -/
def runStage (r : PipeWorld × Option PipeError)
    (stage : PipeWorld → PipeWorld × Option PipeError) :
    PipeWorld × Option PipeError :=
  match r with
  | (w, none) => stage w
  | (w, some e) => (w, some e)

/-- `EnterpriseMarkdownConverter.convert`: metadata, stylesheet and TOC
stages always run in order; the formatter runs only when requested; the
renderer and the post-processor run only when HTML conversion is
requested. -/
def convert (w : PipeWorld) (formatMarkdown convertToHtml : Bool) :
    PipeWorld × Option PipeError :=
  let r1 := metadataStage w
  let r2 := runStage r1 stylesheetStage
  let r3 := runStage r2 tocStage
  let r4 := if formatMarkdown then runStage r3 formatStage else r3
  if convertToHtml then runStage (runStage r4 pandocStage) postprocessStage else r4

/-! ## Specification-side characterisations -/

/-- A concrete image-step environment whose network always fails, with the
default configuration values. -/
def exampleImgEnv : ImgEnv :=
  ⟨fun _ => none, true, chars "images"⟩

/-- A concrete conversion state: readable source, missing stylesheet whose
fetch fails, failing external tools, nothing rendered or written yet. -/
def exampleWorld : PipeWorld where
  mdContent := some (chars "# T")
  styleExists := false
  fetchStyle := none
  formatOracle := fun c => some c
  renderOracle := fun _ => none
  imgEnv := exampleImgEnv
  imgFs := []
  title := chars "-"
  desc := chars "-"
  tempDoc := none
  outputDoc := none
  pandocRan := false
  outputWritten := false

/-! # Lemmas and claim theorems -/

theorem startsWith_append_self (p t : Str) : startsWith p (p ++ t) = true := by
  induction p with
  | nil => rfl
  | cons c cs ih => simp [startsWith, ih]

theorem startsWith_nil_iff (p : Str) : startsWith p [] = true ↔ p = [] := by
  cases p with
  | nil => simp [startsWith]
  | cons c cs => simp [startsWith]

theorem eq_append_of_startsWith :
    ∀ {p s : Str}, startsWith p s = true → s = p ++ s.drop p.length := by
  intro p
  induction p with
  | nil => intro s _; simp
  | cons c cs ih =>
    intro s h
    cases s with
    | nil => simp [startsWith] at h
    | cons d ds =>
      simp only [startsWith, Bool.and_eq_true, decide_eq_true_eq] at h
      obtain ⟨rfl, h2⟩ := h
      simpa using ih h2

theorem splitAtSubstr_some_eq :
    ∀ {pat s a b : Str}, splitAtSubstr pat s = some (a, b) → s = a ++ pat ++ b := by
  intro pat s
  induction s with
  | nil =>
    intro a b h
    simp only [splitAtSubstr] at h
    split at h
    · rename_i hsw
      rw [startsWith_nil_iff] at hsw
      simp only [Option.some.injEq, Prod.mk.injEq] at h
      obtain ⟨rfl, rfl⟩ := h
      simp [hsw]
    · exact absurd h (by simp)
  | cons c cs ih =>
    intro a b h
    simp only [splitAtSubstr] at h
    split at h
    · rename_i hsw
      simp only [Option.some.injEq, Prod.mk.injEq] at h
      obtain ⟨rfl, rfl⟩ := h
      simpa using eq_append_of_startsWith hsw
    · rename_i hsw
      cases hm : splitAtSubstr pat cs with
      | none => rw [hm] at h; exact absurd h (by simp)
      | some p =>
        rw [hm] at h
        obtain ⟨a', b'⟩ := p
        simp only [Option.some.injEq, Prod.mk.injEq] at h
        obtain ⟨rfl, rfl⟩ := h
        simpa using ih hm

theorem splitAtSubstr_none_ne :
    ∀ {pat s : Str}, splitAtSubstr pat s = none → ∀ a b, s ≠ a ++ pat ++ b := by
  intro pat s
  induction s with
  | nil =>
    intro h a b heq
    simp only [splitAtSubstr] at h
    split at h
    · exact absurd h (by simp)
    · rename_i hsw
      have h0 : a = [] ∧ pat = [] ∧ b = [] := by
        have := heq.symm
        simpa [List.append_eq_nil] using this
      exact hsw (by rw [h0.2.1]; rfl)
  | cons c cs ih =>
    intro h a b heq
    simp only [splitAtSubstr] at h
    split at h
    · exact absurd h (by simp)
    · rename_i hsw
      cases hm : splitAtSubstr pat cs with
      | some p => rw [hm] at h; exact absurd h (by simp)
      | none =>
        cases a with
        | nil =>
          simp only [List.nil_append] at heq
          exact hsw (heq ▸ startsWith_append_self pat b)
        | cons a0 a' =>
          simp only [List.cons_append] at heq
          exact ih hm a' b (by simpa using congrArg List.tail heq)

theorem splitAtSubstr_some_min :
    ∀ {pat s a b : Str}, splitAtSubstr pat s = some (a, b) →
      ∀ a' b', s = a' ++ pat ++ b' → a.length ≤ a'.length := by
  intro pat s
  induction s with
  | nil =>
    intro a b h a' b' _
    simp only [splitAtSubstr] at h
    split at h
    · simp only [Option.some.injEq, Prod.mk.injEq] at h
      obtain ⟨rfl, rfl⟩ := h
      simp
    · exact absurd h (by simp)
  | cons c cs ih =>
    intro a b h a' b' heq
    simp only [splitAtSubstr] at h
    split at h
    · simp only [Option.some.injEq, Prod.mk.injEq] at h
      obtain ⟨rfl, rfl⟩ := h
      simp
    · rename_i hsw
      cases hm : splitAtSubstr pat cs with
      | none => rw [hm] at h; exact absurd h (by simp)
      | some p =>
        rw [hm] at h
        obtain ⟨a1, b1⟩ := p
        simp only [Option.some.injEq, Prod.mk.injEq] at h
        obtain ⟨rfl, rfl⟩ := h
        cases a' with
        | nil =>
          exfalso
          simp only [List.nil_append] at heq
          exact hsw (heq ▸ startsWith_append_self pat b')
        | cons a0 a'' =>
          simp only [List.cons_append] at heq
          have h2 : cs = a'' ++ pat ++ b' := by simpa using congrArg List.tail heq
          simpa using ih hm a'' b' h2

theorem containsSub_append (pat a b : Str) : containsSub pat (a ++ pat ++ b) = true := by
  unfold containsSub
  cases hm : splitAtSubstr pat (a ++ pat ++ b) with
  | none => exact absurd rfl (splitAtSubstr_none_ne hm a b)
  | some p => simp

theorem splitAtSubstr_some_not_contains :
    ∀ {pat s a b : Str}, pat ≠ [] → splitAtSubstr pat s = some (a, b) →
      containsSub pat a = false := by
  intro pat s
  induction s with
  | nil =>
    intro a b hpat h
    simp only [splitAtSubstr] at h
    split at h
    · rename_i hsw
      exact absurd ((startsWith_nil_iff pat).mp hsw) hpat
    · exact absurd h (by simp)
  | cons c cs ih =>
    intro a b hpat h
    simp only [splitAtSubstr] at h
    split at h
    · simp only [Option.some.injEq, Prod.mk.injEq] at h
      obtain ⟨rfl, rfl⟩ := h
      unfold containsSub splitAtSubstr
      split
      · rename_i hsw
        exact absurd ((startsWith_nil_iff pat).mp hsw) hpat
      · simp
    · rename_i hsw
      cases hm : splitAtSubstr pat cs with
      | none => rw [hm] at h; exact absurd h (by simp)
      | some p =>
        rw [hm] at h
        obtain ⟨a1, b1⟩ := p
        simp only [Option.some.injEq, Prod.mk.injEq] at h
        obtain ⟨rfl, rfl⟩ := h
        have hn : containsSub pat a1 = false := ih hpat hm
        unfold containsSub splitAtSubstr
        split
        · rename_i hsw2
          exfalso
          have h1 : c :: a1 = pat ++ (c :: a1).drop pat.length :=
            eq_append_of_startsWith hsw2
          have h2 : cs = a1 ++ pat ++ b1 := splitAtSubstr_some_eq hm
          apply hsw
          have : c :: cs = (c :: a1) ++ pat ++ b1 := by simp [h2]
          rw [this, h1]
          have : (pat ++ (c :: a1).drop pat.length) ++ pat ++ b1 =
              pat ++ ((c :: a1).drop pat.length ++ pat ++ b1) := by simp
          rw [this]
          exact startsWith_append_self pat _
        · unfold containsSub at hn
          cases hm2 : splitAtSubstr pat a1 with
          | none => simp
          | some q => rw [hm2] at hn; simp at hn

theorem descToken_length : descToken.length = 12 := rfl

theorem findQualDesc_some_eq :
    ∀ {s a b : Str}, findQualDesc s = some (a, b) →
      s = a ++ descToken ++ b ∧ containsSub arrowToken b = true := by
  intro s
  induction s with
  | nil => intro a b h; simp [findQualDesc] at h
  | cons c cs ih =>
    intro a b h
    simp only [findQualDesc] at h
    split at h
    · rename_i hcond
      simp only [Bool.and_eq_true] at hcond
      simp only [Option.some.injEq, Prod.mk.injEq] at h
      obtain ⟨rfl, rfl⟩ := h
      refine ⟨?_, hcond.2⟩
      have := eq_append_of_startsWith hcond.1
      rw [descToken_length] at this
      simpa using this
    · cases hm : findQualDesc cs with
      | none => rw [hm] at h; exact absurd h (by simp)
      | some p =>
        rw [hm] at h
        obtain ⟨a1, b1⟩ := p
        simp only [Option.some.injEq, Prod.mk.injEq] at h
        obtain ⟨rfl, rfl⟩ := h
        obtain ⟨h1, h2⟩ := ih hm
        exact ⟨by simpa using h1, h2⟩

theorem findQualDesc_none_ne :
    ∀ {s : Str}, findQualDesc s = none →
      ∀ a b, s = a ++ descToken ++ b → containsSub arrowToken b = false := by
  intro s
  induction s with
  | nil =>
    intro _ a b heq
    exfalso
    have : ([] : Str).length = (a ++ descToken ++ b).length := by rw [heq]
    simp only [List.length_nil, List.length_append, descToken_length] at this
    omega
  | cons c cs ih =>
    intro h a b heq
    simp only [findQualDesc] at h
    split at h
    · exact absurd h (by simp)
    · rename_i hcond
      rw [Bool.and_eq_true, not_and_or] at hcond
      cases a with
      | nil =>
        simp only [List.nil_append] at heq
        rcases hcond with hc | hc
        · exact absurd (by rw [heq]; exact startsWith_append_self descToken b) hc
        · have hb : (c :: cs).drop 12 = b := by
            rw [heq, show (12 : Nat) = descToken.length from rfl]
            simp
          simp only [Bool.not_eq_true] at hc
          rwa [hb] at hc
      | cons a0 a' =>
        cases hm : findQualDesc cs with
        | some p => rw [hm] at h; exact absurd h (by simp)
        | none =>
          simp only [List.cons_append] at heq
          exact ih hm a' b (by simpa using congrArg List.tail heq)

/-- **C8** — Description extraction.  (i) the example: a source containing
`<!-- description: A sample spec -->` yields `"A sample spec"`; (ii) absent
any HTML-style comment pattern `<!-- … description: … -->`, the description
is the sentinel `"-"`; (iii) whenever such a comment is present, the
extracted description is exactly the content captured between the first
qualifying `description:` token and the closing `-->` (no earlier `-->`
intervenes), stripped of surrounding whitespace, with a comment opener
preceding the token. -/
theorem c8_description_extraction :
    extractDescription (chars "# Title\n<!-- description: A sample spec -->\nBody text")
      = chars "A sample spec"
    ∧ (∀ content : Str,
        (∀ a b c d : Str,
          content ≠ a ++ commentOpen ++ b ++ descToken ++ c ++ arrowToken ++ d) →
        extractDescription content = chars "-")
    ∧ (∀ content a b c d : Str,
        content = a ++ commentOpen ++ b ++ descToken ++ c ++ arrowToken ++ d →
        ∃ pre mid post : Str,
          content = pre ++ descToken ++ mid ++ arrowToken ++ post ∧
          containsSub commentOpen pre = true ∧
          containsSub arrowToken mid = false ∧
          extractDescription content = pyStrip mid) := by
  refine ⟨by decide, ?_, ?_⟩
  · intro content hno
    cases h1 : splitAtSubstr commentOpen content with
    | none => simp [extractDescription, h1]
    | some p1 =>
      obtain ⟨q1, rest⟩ := p1
      cases h2 : findQualDesc rest with
      | none => simp [extractDescription, h1, h2]
      | some p2 =>
        exfalso
        obtain ⟨q2, after⟩ := p2
        obtain ⟨he2, harr⟩ := findQualDesc_some_eq h2
        have he1 : content = q1 ++ commentOpen ++ rest := splitAtSubstr_some_eq h1
        unfold containsSub at harr
        cases h3 : splitAtSubstr arrowToken after with
        | none => rw [h3] at harr; simp at harr
        | some p3 =>
          obtain ⟨mid, post⟩ := p3
          have he3 : after = mid ++ arrowToken ++ post := splitAtSubstr_some_eq h3
          exact hno q1 q2 mid post (by rw [he1, he2, he3]; simp)
  · intro content a b c d heq
    have hopen : splitAtSubstr commentOpen content ≠ none := by
      intro hn
      exact splitAtSubstr_none_ne hn a (b ++ descToken ++ c ++ arrowToken ++ d)
        (by rw [heq]; simp)
    cases h1 : splitAtSubstr commentOpen content with
    | none => exact absurd h1 hopen
    | some p1 =>
      obtain ⟨p1a, rest⟩ := p1
      have he1 : content = p1a ++ commentOpen ++ rest := splitAtSubstr_some_eq h1
      have hmin : p1a.length ≤ a.length :=
        splitAtSubstr_some_min h1 a (b ++ descToken ++ c ++ arrowToken ++ d)
          (by rw [heq]; simp)
      -- rest contains a qualifying description token
      have hdecomp : ∃ x : Str, rest = x ++ descToken ++ (c ++ arrowToken ++ d) := by
        have hcat : (p1a ++ commentOpen) ++ rest =
            (a ++ commentOpen ++ b) ++ (descToken ++ (c ++ arrowToken ++ d)) := by
          rw [← List.append_assoc, ← he1, heq]; simp
        rcases List.append_eq_append_iff.mp hcat with ⟨w, hw1, hw2⟩ | ⟨z, hz1, hz2⟩
        · exact ⟨w, by rw [hw2]; simp⟩
        · have hzlen : z.length = 0 := by
            have := congrArg List.length hz1
            simp only [List.length_append] at this
            have hc4 : commentOpen.length = 4 := rfl
            rw [hc4] at this
            omega
          have hznil : z = [] := List.eq_nil_of_length_eq_zero hzlen
          subst hznil
          simp only [List.nil_append] at hz2
          exact ⟨[], by rw [← hz2]; simp⟩
      obtain ⟨x, hx⟩ := hdecomp
      have hq : findQualDesc rest ≠ none := by
        intro hn
        have := findQualDesc_none_ne hn x (c ++ arrowToken ++ d) hx
        rw [containsSub_append arrowToken c d] at this
        simp at this
      cases h2 : findQualDesc rest with
      | none => exact absurd h2 hq
      | some p2 =>
        obtain ⟨p2a, after⟩ := p2
        obtain ⟨he2, harr⟩ := findQualDesc_some_eq h2
        unfold containsSub at harr
        cases h3 : splitAtSubstr arrowToken after with
        | none => rw [h3] at harr; simp at harr
        | some p3 =>
          obtain ⟨mid, post⟩ := p3
          have he3 : after = mid ++ arrowToken ++ post := splitAtSubstr_some_eq h3
          refine ⟨p1a ++ commentOpen ++ p2a, mid, post, ?_, ?_, ?_, ?_⟩
          · rw [he1, he2, he3]; simp
          · have : p1a ++ commentOpen ++ p2a = p1a ++ commentOpen ++ p2a := rfl
            calc containsSub commentOpen (p1a ++ commentOpen ++ p2a)
                = containsSub commentOpen (p1a ++ commentOpen ++ p2a) := rfl
              _ = true := containsSub_append commentOpen p1a p2a
          · exact splitAtSubstr_some_not_contains (by decide) h3
          · simp [extractDescription, h1, h2, h3]

theorem pyStrip_all_space {s : Str} (h : s.dropWhile isPySpace = []) : pyStrip s = [] := by
  unfold pyStrip trimLeft trimRight
  rw [h]
  rfl

theorem takeWhile_append_all {p : Char → Bool} :
    ∀ (ws : Str) (d : Char) (l : Str), (∀ a ∈ ws, p a = true) → p d = false →
      (ws ++ d :: l).takeWhile p = ws := by
  intro ws d l hws hd
  induction ws with
  | nil => simp [List.takeWhile_cons, hd]
  | cons a as ih =>
    have ha : p a = true := hws a (by simp)
    have ih2 := ih (fun x hx => hws x (by simp [hx]))
    simp [List.takeWhile_cons, ha, ih2]

theorem attemptOkF_zero (b : Bool) (c : Char) (cs : Str) :
    attemptOkF b (c :: cs) 0 = (b && (c == '#') && (titleCapture cs).isSome) := rfl

theorem attemptOkF_cons (b : Bool) (c : Char) (cs : Str) (n : Nat) :
    attemptOkF b (c :: cs) (n + 1) = attemptOkF (c == '\n') cs n := by
  cases n with
  | zero => rfl
  | succ m => rfl

theorem extractTitleSearch_cons (b : Bool) (c : Char) (cs : Str) :
    extractTitleSearch b (c :: cs) =
      if b && c == '#' then
        match titleCapture cs with
        | some t => some t
        | none => extractTitleSearch (c == '\n') cs
      else extractTitleSearch (c == '\n') cs := rfl

theorem extractTitleSearch_eq_none :
    ∀ (content : Str) (b : Bool),
      (∀ n, n < content.length → attemptOkF b content n = false) →
      extractTitleSearch b content = none := by
  intro content
  induction content with
  | nil => intro b _; rfl
  | cons c cs ih =>
    intro b h
    have h0 : (b && (c == '#') && (titleCapture cs).isSome) = false := by
      rw [← attemptOkF_zero]
      exact h 0 (Nat.succ_pos _)
    have hrec : extractTitleSearch (c == '\n') cs = none := by
      apply ih
      intro n hn
      rw [← attemptOkF_cons b]
      exact h (n + 1) (by simp only [List.length_cons]; omega)
    rw [extractTitleSearch_cons]
    by_cases hb : (b && c == '#') = true
    · have hcapn : titleCapture cs = none := by
        cases hc : titleCapture cs with
        | none => rfl
        | some u => rw [hb, hc] at h0; simp at h0
      rw [if_pos hb, hcapn]
      exact hrec
    · rw [if_neg hb]
      exact hrec

theorem extractTitleSearch_eq_some :
    ∀ (content : Str) (b : Bool) (n : Nat) (t : Str),
      attemptOkF b content n = true →
      titleCapture (content.drop (n + 1)) = some t →
      (∀ m, m < n → attemptOkF b content m = false) →
      extractTitleSearch b content = some t := by
  intro content
  induction content with
  | nil =>
    intro b n t h _ _
    exact absurd h (by simp [attemptOkF])
  | cons c cs ih =>
    intro b n t h hcap hmin
    cases n with
    | zero =>
      rw [attemptOkF_zero] at h
      simp only [Bool.and_eq_true] at h
      have hb : (b && (c == '#')) = true := by simp [h.1.1, h.1.2]
      have hcap2 : titleCapture cs = some t := hcap
      rw [extractTitleSearch_cons, if_pos hb, hcap2]
    | succ m =>
      have h0 : (b && (c == '#') && (titleCapture cs).isSome) = false := by
        rw [← attemptOkF_zero]
        exact hmin 0 (Nat.succ_pos _)
      have hrec : extractTitleSearch (c == '\n') cs = some t := by
        apply ih (c == '\n') m t
        · rw [← attemptOkF_cons b]; exact h
        · exact hcap
        · intro k hk
          rw [← attemptOkF_cons b]
          exact hmin (k + 1) (Nat.succ_lt_succ hk)
      rw [extractTitleSearch_cons]
      by_cases hb : (b && c == '#') = true
      · have hcapn : titleCapture cs = none := by
          cases hc : titleCapture cs with
          | none => rfl
          | some u => rw [hb, hc] at h0; simp at h0
        rw [if_pos hb, hcapn]
        exact hrec
      · rw [if_neg hb]
        exact hrec

theorem titleCapture_run :
    ∀ (ws : Str) (d : Char) (rest : Str),
      ws ≠ [] → (∀ a ∈ ws, isPySpace a = true) → isPySpace d = false →
      titleCapture (ws ++ d :: rest)
        = some ((d :: rest).takeWhile (fun c => c != '\n')) := by
  intro ws d rest hne hws hd
  have h1 : (ws ++ d :: rest).takeWhile isPySpace = ws :=
    takeWhile_append_all ws d rest hws hd
  have h2 : (ws ++ d :: rest).drop ws.length = d :: rest :=
    List.drop_left ws (d :: rest)
  have h3 : ws.isEmpty = false := by
    cases ws with
    | nil => exact absurd rfl hne
    | cons a as => rfl
  unfold titleCapture
  rw [h1, h2]
  simp [h3]

/-- **C7 (amended)** — Title extraction.  The title regex `^#\s+(.+)$` with
`re.MULTILINE` is not line-local: `\s` also matches `'\n'`, so after a `'#'`
at a line start the whitespace run may cross line ends, and the captured
text is the remainder of the line on which the run stops.  The extracted
title is the `.strip()` of the capture of the leftmost such match, and the
sentinel `"-"` when no position admits a match (in particular a lower-level
heading never matches, because its second `'#'` is neither whitespace nor at
a line start).  The claim's example holds (`"# Hello World"` yields
`"Hello World"`); `"#\nHello"` yields `"Hello"` with marker and title on
different lines; the universal conjuncts characterise the no-match case, the
leftmost-match case, and the capture after a whitespace run ended by a
non-whitespace character. -/
theorem c7_title_extraction :
    extractTitle (chars "# Hello World\nSome body text") = chars "Hello World"
    ∧ extractTitle (chars "#\nHello") = chars "Hello"
    ∧ extractTitle (chars "no heading here\n## only a subheading") = chars "-"
    ∧ (∀ content : Str,
        (∀ n, n < content.length → attemptOk content n = false) →
        extractTitle content = chars "-")
    ∧ (∀ (content : Str) (n : Nat) (t : Str),
        attemptOk content n = true →
        titleCapture (content.drop (n + 1)) = some t →
        (∀ m, m < n → attemptOk content m = false) →
        extractTitle content = pyStrip t)
    ∧ (∀ (ws : Str) (d : Char) (rest : Str),
        ws ≠ [] → (∀ a ∈ ws, isPySpace a = true) → isPySpace d = false →
        titleCapture (ws ++ d :: rest)
          = some ((d :: rest).takeWhile (fun c => c != '\n'))) := by
  refine ⟨by decide, by decide, by decide, ?_, ?_, titleCapture_run⟩
  · intro content h
    unfold extractTitle
    rw [extractTitleSearch_eq_none content true h]
  · intro content n t h hcap hmin
    unfold extractTitle
    rw [extractTitleSearch_eq_some content true n t h hcap hmin]

/-- **C7 (counterexample)** — The claim as stated fails: in the source
`"#\nHello"` no line starts with the claimed marker (single leading `'#'`
followed by a space) — its lines are `"#"` and `"Hello"` — so the claim
requires the sentinel `"-"`; but `\s` in the title regex `^#\s+(.+)$` also
matches `'\n'`, the match crosses the line boundary, and the code extracts
`"Hello"` from the second line. -/
theorem c7_title_extraction_counterexample :
    ((splitLines (chars "#\nHello")).all
      (fun l => !startsWith (chars "# ") l)) = true
    ∧ extractTitle (chars "#\nHello") = chars "Hello"
    ∧ chars "Hello" ≠ chars "-" := by
  refine ⟨by decide, by decide, by decide⟩

/-- Witness for C7 at concrete inputs: the leftmost-match case on a document
whose heading sits mid-document, the no-match case, and the capture after a
one-space whitespace run. -/
theorem c7_title_extraction_witness :
    extractTitle (chars "x\n# Title\ny") = pyStrip (chars "Title")
    ∧ extractTitle (chars "plain text only") = chars "-"
    ∧ titleCapture (chars " " ++ 'T' :: chars "itle")
      = some (('T' :: chars "itle").takeWhile (fun c => c != '\n')) :=
  ⟨c7_title_extraction.2.2.2.2.1 (chars "x\n# Title\ny") 2 (chars "Title")
      (by decide) (by decide) (by decide),
   c7_title_extraction.2.2.2.1 (chars "plain text only") (by decide),
   c7_title_extraction.2.2.2.2.2 (chars " ") 'T' (chars "itle")
      (by decide) (by decide) (by decide)⟩

theorem mem_splitBreaksAux_nonbreak :
    ∀ (s : Str) (flag : Bool) (l : Str), l ∈ splitBreaksAux flag s →
      l.all (fun c => !isLineBreakChar c) = true := by
  intro s
  induction s with
  | nil =>
    intro flag l hl
    simp only [splitBreaksAux, List.mem_singleton] at hl
    simp [hl]
  | cons c cs ih =>
    intro flag l hl
    simp only [splitBreaksAux] at hl
    by_cases hn : c = '\n'
    · rw [if_pos hn] at hl
      cases flag with
      | true => exact ih false l (by simpa using hl)
      | false =>
        simp only [Bool.false_eq_true, if_false, List.mem_cons] at hl
        rcases hl with rfl | hl
        · rfl
        · exact ih false l hl
    · rw [if_neg hn] at hl
      by_cases hb : isLineBreakChar c
      · rw [if_pos hb] at hl
        simp only [List.mem_cons] at hl
        rcases hl with rfl | hl
        · rfl
        · exact ih (c = '\r') l hl
      · rw [if_neg hb] at hl
        cases hsb : splitBreaksAux false cs with
        | nil =>
          rw [hsb] at hl
          simp only [consHead, List.mem_singleton] at hl
          subst hl
          simp only [List.all_cons, Bool.and_eq_true, Bool.not_eq_true']
          exact ⟨by simpa using hb, rfl⟩
        | cons h0 hs =>
          rw [hsb] at hl
          simp only [consHead, List.mem_cons] at hl
          rcases hl with rfl | hl
          · have hh : h0 ∈ splitBreaksAux false cs := by rw [hsb]; simp
            have := ih false h0 hh
            simp only [List.all_cons, Bool.and_eq_true, Bool.not_eq_true']
            exact ⟨by simpa using hb, this⟩
          · exact ih false l (by rw [hsb]; simp [hl])

theorem mem_dropTrailingEmpty (ls : List Str) (x : Str) (hx : x ∈ ls) (hne : ¬x.isEmpty) :
    x ∈ dropTrailingEmpty ls := by
  induction ls with
  | nil => simp at hx
  | cons l rest ih =>
    cases rest with
    | nil =>
      simp only [List.mem_singleton] at hx
      subst hx
      simp [dropTrailingEmpty, hne]
    | cons l2 rest2 =>
      simp only [List.mem_cons] at hx
      have hstep : dropTrailingEmpty (l :: l2 :: rest2) = l :: dropTrailingEmpty (l2 :: rest2) := rfl
      rw [hstep]
      rcases hx with rfl | hx
      · simp
      · exact List.mem_cons_of_mem _ (ih (by simpa using hx))

theorem dropTrailingEmpty_subset (ls : List Str) (x : Str) (hx : x ∈ dropTrailingEmpty ls) :
    x ∈ ls := by
  induction ls with
  | nil => simp [dropTrailingEmpty] at hx
  | cons l rest ih =>
    cases rest with
    | nil =>
      simp only [dropTrailingEmpty] at hx
      split at hx
      · simp at hx
      · simpa using hx
    | cons l2 rest2 =>
      have hstep : dropTrailingEmpty (l :: l2 :: rest2) = l :: dropTrailingEmpty (l2 :: rest2) := rfl
      rw [hstep] at hx
      rcases List.mem_cons.mp hx with rfl | hx2
      · exact List.mem_cons_self _ _
      · exact List.mem_cons_of_mem _ (ih hx2)

theorem splitBreaksAux_all_nonbreak :
    ∀ (l : Str) (flag : Bool), l.all (fun c => !isLineBreakChar c) = true →
      splitBreaksAux flag l = [l] := by
  intro l
  induction l with
  | nil => intro flag _; rfl
  | cons c cs ih =>
    intro flag h
    simp only [List.all_cons, Bool.and_eq_true, Bool.not_eq_true'] at h
    have hn : c ≠ '\n' := by
      intro hc; rw [hc] at h; exact absurd h.1 (by decide)
    have hb : ¬isLineBreakChar c = true := by simp [h.1]
    simp only [splitBreaksAux, if_neg hn, if_neg hb]
    rw [ih false (by simpa using h.2)]
    rfl

theorem splitBreaksAux_append_nl :
    ∀ (l t : Str), l.all (fun c => !isLineBreakChar c) = true →
      splitBreaksAux false (l ++ '\n' :: t) = l :: splitBreaksAux false t := by
  intro l
  induction l with
  | nil =>
    intro t _
    simp [splitBreaksAux]
  | cons c cs ih =>
    intro t h
    simp only [List.all_cons, Bool.and_eq_true, Bool.not_eq_true'] at h
    have hn : c ≠ '\n' := by
      intro hc; rw [hc] at h; exact absurd h.1 (by decide)
    have hb : ¬isLineBreakChar c = true := by simp [h.1]
    have key : (c :: cs) ++ '\n' :: t = c :: (cs ++ '\n' :: t) := rfl
    rw [key]
    have step : splitBreaksAux false (c :: (cs ++ '\n' :: t))
        = consHead c (splitBreaksAux false (cs ++ '\n' :: t)) := by
      simp only [splitBreaksAux, if_neg hn, if_neg hb]
    rw [step, ih t (by simpa using h.2)]
    rfl

theorem splitBreaks_joinNl :
    ∀ ls : List Str, ls ≠ [] → (∀ l ∈ ls, l.all (fun c => !isLineBreakChar c) = true) →
      splitBreaks (joinNl ls) = ls := by
  intro ls
  induction ls with
  | nil => intro h _; exact absurd rfl h
  | cons l rest ih =>
    intro _ hall
    cases rest with
    | nil =>
      show splitBreaksAux false (joinNl [l]) = [l]
      simp only [joinNl]
      exact splitBreaksAux_all_nonbreak l false (hall l (by simp))
    | cons l2 rest2 =>
      show splitBreaksAux false (joinNl (l :: l2 :: rest2)) = l :: l2 :: rest2
      have hj : joinNl (l :: l2 :: rest2) = l ++ '\n' :: joinNl (l2 :: rest2) := rfl
      rw [hj, splitBreaksAux_append_nl l _ (hall l (by simp))]
      have hr := ih (by simp) (fun x hx => hall x (by simp [hx]))
      rw [show splitBreaks (joinNl (l2 :: rest2))
          = splitBreaksAux false (joinNl (l2 :: rest2)) from rfl] at hr
      rw [hr]

theorem tocLevel_pos (ls : List Str) : 0 < tocLevel ls := by
  cases ls with
  | nil => decide
  | cons l rest =>
    show 0 < (match headingHashLevel l with | some k => k + 1 | none => 2)
    cases headingHashLevel l with
    | some k => exact Nat.succ_pos k
    | none => exact Nat.succ_pos 1

theorem replicate_hash_nonbreak (n : Nat) :
    (List.replicate n '#').all (fun c => !isLineBreakChar c) = true := by
  induction n with
  | zero => rfl
  | succ m ih =>
    rw [List.replicate_succ, List.all_cons]
    exact Bool.and_eq_true_iff.mpr ⟨by decide, ih⟩

theorem mkTocTitle_nonbreak (n : Nat) :
    (mkTocTitle n).all (fun c => !isLineBreakChar c) = true := by
  unfold mkTocTitle
  rw [List.all_append]
  exact Bool.and_eq_true_iff.mpr ⟨replicate_hash_nonbreak n, by decide⟩

theorem mkTocTitle_ne_nil (n : Nat) : ¬(mkTocTitle n).isEmpty := by
  unfold mkTocTitle
  cases n with
  | zero => decide
  | succ m => simp [List.replicate_succ]

theorem isTocTitle_cons_hash (rest : Str) :
    isTocTitle ('#' :: '#' :: rest) = isTocTitle ('#' :: rest) := by
  simp only [isTocTitle]
  have h1 : ('#' :: '#' :: rest).dropWhile isPySpace = '#' :: '#' :: rest := by
    rw [List.dropWhile_cons]
    simp [isPySpace]
  have h2 : ('#' :: rest).dropWhile isPySpace = '#' :: rest := by
    rw [List.dropWhile_cons]
    simp [isPySpace]
  rw [h1, h2]
  have h3 : ('#' :: '#' :: rest).takeWhile (fun c => c = '#')
      = '#' :: ('#' :: rest).takeWhile (fun c => c = '#') := by
    rw [List.takeWhile_cons]
    simp
  rw [h3]
  have h4 : ('#' :: ('#' :: rest).takeWhile (fun c => c = '#')).length
      = (('#' :: rest).takeWhile (fun c => c = '#')).length + 1 := by simp
  rw [h4]
  have h5 : ('#' :: '#' :: rest).drop ((('#' :: rest).takeWhile (fun c => c = '#')).length + 1)
      = ('#' :: rest).drop ((('#' :: rest).takeWhile (fun c => c = '#')).length) := by
    simp [List.drop_succ_cons]
  rw [h5]
  simp

theorem isTocTitle_mkTocTitle_succ : ∀ m : Nat, isTocTitle (mkTocTitle (m + 1)) = true := by
  intro m
  induction m with
  | zero => decide
  | succ m2 ih =>
    have hstep : mkTocTitle (m2 + 1 + 1) = '#' :: mkTocTitle (m2 + 1) := by
      unfold mkTocTitle
      rw [List.replicate_succ]
      rfl
    have hshape : mkTocTitle (m2 + 1)
        = '#' :: (List.replicate m2 '#' ++ chars " Table of Contents") := by
      unfold mkTocTitle
      rw [List.replicate_succ]
      rfl
    rw [hstep, hshape, isTocTitle_cons_hash, ← hshape]
    exact ih

theorem isTocTitle_mkTocTitle (n : Nat) (h : 0 < n) : isTocTitle (mkTocTitle n) = true := by
  cases n with
  | zero => omega
  | succ m => exact isTocTitle_mkTocTitle_succ m

/-- **C5** — TOC title insertion.  When the source has TOC entry lines (the
first at index `i`) and no "Table of Contents" heading, the normaliser
inserts the synthesized heading immediately before the first entry line, at
level `tocLevel` — the first document heading's level plus one, defaulting
to 2 when the document has no leading heading — and persists the re-joined
lines; re-running the normaliser on the result finds the title present and
changes nothing. -/
theorem c5_toc_title_insertion (content : Str) (i : Nat)
    (hE : (splitLines content).findIdx? isTocEntry = some i)
    (hT : (splitLines content).any isTocTitle = false) :
    tocProcess content =
      joinNl ((splitLines content).take i ++
        mkTocTitle (tocLevel (splitLines content)) :: (splitLines content).drop i)
    ∧ tocProcess (tocProcess content) = tocProcess content := by
  have h1 : tocProcess content =
      joinNl ((splitLines content).take i ++
        mkTocTitle (tocLevel (splitLines content)) :: (splitLines content).drop i) := by
    simp only [tocProcess]
    rw [hE, hT]
    simp
  refine ⟨h1, ?_⟩
  rw [h1]
  set ls := splitLines content with hls
  set title := mkTocTitle (tocLevel ls) with htitle
  set ls₂ := ls.take i ++ title :: ls.drop i with hls2
  have hmem : title ∈ ls₂ := by simp [hls2]
  have hnonbreak : ∀ l ∈ ls₂, l.all (fun c => !isLineBreakChar c) = true := by
    intro l hl
    simp only [hls2, List.mem_append, List.mem_cons] at hl
    rcases hl with hl | rfl | hl
    · exact mem_splitBreaksAux_nonbreak content false l
        (dropTrailingEmpty_subset _ l (List.mem_of_mem_take hl))
    · exact mkTocTitle_nonbreak _
    · exact mem_splitBreaksAux_nonbreak content false l
        (dropTrailingEmpty_subset _ l (List.mem_of_mem_drop hl))
  have hround : splitLines (joinNl ls₂) = dropTrailingEmpty ls₂ := by
    unfold splitLines
    rw [splitBreaks_joinNl ls₂ (by simp [hls2]) hnonbreak]
  have htmem : title ∈ splitLines (joinNl ls₂) := by
    rw [hround]
    exact mem_dropTrailingEmpty ls₂ title hmem (mkTocTitle_ne_nil _)
  have hany : (splitLines (joinNl ls₂)).any isTocTitle = true := by
    rw [List.any_eq_true]
    exact ⟨title, htmem, isTocTitle_mkTocTitle _ (tocLevel_pos ls)⟩
  simp only [tocProcess]
  cases hidx : (splitLines (joinNl ls₂)).findIdx? isTocEntry with
  | none => rfl
  | some j => rw [hany]; simp

/-- **C9** — Meta-tag injection.  The description tag is inserted only when
the description differs from the sentinel `"-"`; each tag is inserted at the
front of the head's children, so the final visible order of the injected
tags is the reverse of their insertion order (description first, then the
fixed viewport/charset/generator/author tags).  The second part shows the
transformation applied to a document with a `head` element. -/
theorem c9_meta_tag_injection :
    (∀ (desc : Str) (head : List Node),
      metaInject desc head =
        ((if desc ≠ chars "-" then [metaNameTag "description" desc] else []) ++
          metaPairs.map mkMetaTag).reverse ++ head)
    ∧ (∀ (desc : Str) (hAttrs : List (String × Str)) (hcs rest : List Node)
        (dAttrs htmlAttrs : List (String × Str)),
      addMetaTagsDoc desc
        (.elem "[document]" dAttrs [.elem "html" htmlAttrs (.elem "head" hAttrs hcs :: rest)]) =
        .elem "[document]" dAttrs
          [.elem "html" htmlAttrs (.elem "head" hAttrs (metaInject desc hcs) :: rest)]) := by
  constructor
  · intro desc head
    by_cases h : desc = chars "-"
    · simp [metaInject, h, metaPairs, mkMetaTag, metaNameTag]
    · simp [metaInject, h, metaPairs, mkMetaTag, metaNameTag]
  · intro desc hAttrs hcs rest dAttrs htmlAttrs
    simp [addMetaTagsDoc, mapFirstTagNode, mapFirstTagList]

/-- **C2** — Fatal stylesheet failure.  When the managed stylesheet is
absent and its fetch fails, every conversion aborts with an error, the
external renderer is never invoked, and no output file is produced. -/
theorem c2_stylesheet_failure_aborts (w : PipeWorld) (fmt conv : Bool)
    (hexists : w.styleExists = false) (hfetch : w.fetchStyle = none)
    (hran : w.pandocRan = false) (hout : w.outputWritten = false) :
    (convert w fmt conv).2.isSome = true
    ∧ (convert w fmt conv).1.pandocRan = false
    ∧ (convert w fmt conv).1.outputWritten = false := by
  cases hmd : w.mdContent with
  | none =>
    cases fmt <;> cases conv <;>
      simp [convert, runStage, metadataStage, hmd, hran, hout]
  | some c =>
    cases fmt <;> cases conv <;>
      simp [convert, runStage, metadataStage, stylesheetStage, hmd, hexists, hfetch, hran, hout]

theorem processImgList_append (env : ImgEnv) (fs : List Str) (a b : List Node) :
    processImgList env fs (a ++ b) =
      ⟨(processImgList env (processImgList env fs a).fs b).fs,
       (processImgList env fs a).fetches
         + (processImgList env (processImgList env fs a).fs b).fetches,
       (processImgList env fs a).nodes
         ++ (processImgList env (processImgList env fs a).fs b).nodes⟩ := by
  induction a generalizing fs with
  | nil => simp [processImgList]
  | cons c cs ih =>
    simp only [List.cons_append, processImgList, List.append_eq]
    rw [ih]
    simp [Nat.add_assoc, List.append_assoc]

theorem processImgNode_failed (env : ImgEnv) (fs : List Str) (attrs : List (String × Str))
    (hext : isExternalUrl (getAttr attrs "src") = true)
    (hlogo : isOasisLogo (getAttr attrs "src") = false)
    (hfetch : env.fetch (getAttr attrs "src") = none)
    (hmiss : (fs.contains (derivedFilename (getAttr attrs "src")) && env.cacheImages) = false) :
    processImgNode env fs (.elem "img" attrs []) = ⟨fs, 1, []⟩ := by
  have hcond : (!(fs.contains (derivedFilename (getAttr attrs "src"))) || !env.cacheImages) = true := by
    rw [← Bool.not_and, hmiss]
    rfl
  have hens : ensureImage env fs (getAttr attrs "src") = (fs, 1, none) := by
    simp only [ensureImage]
    rw [hcond]
    simp [hfetch]
  simp [processImgNode, hext, hlogo, hens]

/-- **C3** — Failed image fetch removes the element.  An `img` whose `src`
is an external non-logo URL, whose derived file is not usable from the cache
and whose fetch fails, disappears entirely from the processed child list; the
siblings before and after it are processed exactly as they would be without
it (the stage completes, the failure is isolated to the one image, and only
its one failed network request is added). -/
theorem c3_failed_image_removed (env : ImgEnv) (fs : List Str)
    (pre post : List Node) (attrs : List (String × Str))
    (hext : isExternalUrl (getAttr attrs "src") = true)
    (hlogo : isOasisLogo (getAttr attrs "src") = false)
    (hfetch : env.fetch (getAttr attrs "src") = none)
    (hmiss : ((processImgList env fs pre).fs.contains (derivedFilename (getAttr attrs "src"))
        && env.cacheImages) = false) :
    processImgList env fs (pre ++ Node.elem "img" attrs [] :: post) =
      ⟨(processImgList env (processImgList env fs pre).fs post).fs,
       (processImgList env fs pre).fetches + 1
         + (processImgList env (processImgList env fs pre).fs post).fetches,
       (processImgList env fs pre).nodes
         ++ (processImgList env (processImgList env fs pre).fs post).nodes⟩ := by
  rw [processImgList_append]
  have hsingle : processImgList env (processImgList env fs pre).fs
      (Node.elem "img" attrs [] :: post) =
      ⟨(processImgList env (processImgList env fs pre).fs post).fs,
       1 + (processImgList env (processImgList env fs pre).fs post).fetches,
       (processImgList env (processImgList env fs pre).fs post).nodes⟩ := by
    simp only [processImgList]
    rw [processImgNode_failed env _ attrs hext hlogo hfetch hmiss]
    simp
  rw [hsingle]
  simp [Nat.add_assoc]

/-- **C4** — Cache hit avoids the network.  When the derived local file
already exists and caching is enabled, resolving the asset issues zero
network requests, returns the existing relative path, and a second call with
the resulting state returns the same answer with no further effect. -/
theorem c4_cache_hit (env : ImgEnv) (fs : List Str) (src : Str)
    (hcached : fs.contains (derivedFilename src) = true)
    (hcache : env.cacheImages = true) :
    ensureImage env fs src = (fs, 0, some (env.imagesSubdir ++ '/' :: derivedFilename src))
    ∧ ensureImage env (ensureImage env fs src).1 src = ensureImage env fs src := by
  have hmem : derivedFilename src ∈ fs := by simpa using hcached
  have h1 : ensureImage env fs src
      = (fs, 0, some (env.imagesSubdir ++ '/' :: derivedFilename src)) := by
    simp [ensureImage, hmem, hcache]
  exact ⟨h1, by rw [h1]; exact h1⟩

/-- **C10** — Non-external and logo images are untouched.  An `img` whose
`src` is not an absolute http(s) URL, or which references the OASIS logo
marker, passes through the image step unchanged: no network request, no
`src` rewrite, no removal. -/
theorem c10_non_external_image_untouched (env : ImgEnv) (fs : List Str)
    (attrs : List (String × Str))
    (h : isExternalUrl (getAttr attrs "src") = false ∨ isOasisLogo (getAttr attrs "src") = true) :
    processImgNode env fs (.elem "img" attrs []) = ⟨fs, 0, [.elem "img" attrs []]⟩ := by
  rcases h with h | h <;> simp [processImgNode, h]

theorem hasLogoNode_logoImg : hasLogoNode logoImg = true := by decide

mutual
theorem mapFirstTagNode_not_found (t : String)
    (f : List (String × Str) → List Node → List (String × Str) × List Node)
    (n : Node) (h : (mapFirstTagNode t f n).1 = false) : (mapFirstTagNode t f n).2 = n := by
  cases n with
  | text s => rfl
  | elem tag attrs cs =>
    by_cases htag : tag = t
    · simp [mapFirstTagNode, htag] at h
    · simp only [mapFirstTagNode, htag, if_false] at h ⊢
      rw [mapFirstTagList_not_found t f cs h]

theorem mapFirstTagList_not_found (t : String)
    (f : List (String × Str) → List Node → List (String × Str) × List Node)
    (l : List Node) (h : (mapFirstTagList t f l).1 = false) : (mapFirstTagList t f l).2 = l := by
  cases l with
  | nil => rfl
  | cons c cs =>
    by_cases hc : (mapFirstTagNode t f c).1 = true
    · simp only [mapFirstTagList, hc, if_true] at h
      exact absurd h (by simp)
    · simp only [Bool.not_eq_true] at hc
      simp only [mapFirstTagList, hc, Bool.false_eq_true, if_false] at h ⊢
      rw [mapFirstTagNode_not_found t f c hc, mapFirstTagList_not_found t f cs h]
end

mutual
theorem mapFirstTagNode_idem (t : String)
    (f : List (String × Str) → List Node → List (String × Str) × List Node)
    (hf : ∀ a c, f (f a c).1 (f a c).2 = f a c) (n : Node) :
    mapFirstTagNode t f ((mapFirstTagNode t f n).2) = mapFirstTagNode t f n := by
  cases n with
  | text s => rfl
  | elem tag attrs cs =>
    by_cases htag : tag = t
    · subst htag
      have hstep : ∀ (a : List (String × Str)) (c : List Node),
          mapFirstTagNode tag f (.elem tag a c) = (true, .elem tag (f a c).1 (f a c).2) := by
        intro a c
        simp [mapFirstTagNode]
      rw [hstep attrs cs]
      show mapFirstTagNode tag f (.elem tag (f attrs cs).1 (f attrs cs).2) = _
      rw [hstep ((f attrs cs).1) ((f attrs cs).2), hf attrs cs]
    · simp only [mapFirstTagNode, htag, if_false]
      rw [show (mapFirstTagList t f ((mapFirstTagList t f cs).2)) = mapFirstTagList t f cs from
        mapFirstTagList_idem t f hf cs]

theorem mapFirstTagList_idem (t : String)
    (f : List (String × Str) → List Node → List (String × Str) × List Node)
    (hf : ∀ a c, f (f a c).1 (f a c).2 = f a c) (l : List Node) :
    mapFirstTagList t f ((mapFirstTagList t f l).2) = mapFirstTagList t f l := by
  cases l with
  | nil => rfl
  | cons c cs =>
    by_cases hc : (mapFirstTagNode t f c).1 = true
    · simp only [mapFirstTagList, hc, if_true]
      have hidem := mapFirstTagNode_idem t f hf c
      simp only [mapFirstTagList, hidem, hc, if_true]
    · simp only [Bool.not_eq_true] at hc
      simp only [mapFirstTagList, hc, Bool.false_eq_true, if_false]
      have hidem := mapFirstTagNode_idem t f hf c
      simp only [mapFirstTagList, hidem, hc, Bool.false_eq_true, if_false,
        mapFirstTagList_idem t f hf cs]
end

theorem logoInsertStep_fix (a : List (String × Str)) (c : List Node) :
    logoInsertStep (logoInsertStep a c).1 (logoInsertStep a c).2 = logoInsertStep a c := by
  by_cases h : hasLogoList c
  · simp [logoInsertStep, h]
  · simp only [logoInsertStep, h, Bool.false_eq_true, if_false]
    have hlogo : hasLogoList (logoImg :: c) = true := by
      simp [hasLogoList, hasLogoNode_logoImg]
    simp [hlogo]

/-- **C6** — Logo insertion.  A body without an image referencing the logo
marker gains the configured logo element as its first child; a body that
already has one is left unchanged; the same in a full document shape; and
the insertion is idempotent on arbitrary documents — re-running it never
duplicates the logo. -/
theorem c6_logo_insertion :
    (∀ (attrs : List (String × Str)) (cs : List Node), hasLogoList cs = false →
      addOasisLogo (.elem "body" attrs cs) = .elem "body" attrs (logoImg :: cs))
    ∧ (∀ (attrs : List (String × Str)) (cs : List Node), hasLogoList cs = true →
      addOasisLogo (.elem "body" attrs cs) = .elem "body" attrs cs)
    ∧ (∀ (ha ba da : List (String × Str)) (cs : List Node), hasLogoList cs = false →
      addOasisLogo
        (.elem "[document]" []
          [.elem "html" da [.elem "head" ha [], .elem "body" ba cs]]) =
      .elem "[document]" []
        [.elem "html" da [.elem "head" ha [], .elem "body" ba (logoImg :: cs)]])
    ∧ (∀ doc : Node, addOasisLogo (addOasisLogo doc) = addOasisLogo doc) := by
  refine ⟨?_, ?_, ?_, ?_⟩
  · intro attrs cs h
    simp [addOasisLogo, mapFirstTagNode, logoInsertStep, h]
  · intro attrs cs h
    simp [addOasisLogo, mapFirstTagNode, logoInsertStep, h]
  · intro ha ba da cs h
    simp [addOasisLogo, mapFirstTagNode, mapFirstTagList, logoInsertStep, h]
  · intro doc
    unfold addOasisLogo
    rw [mapFirstTagNode_idem _ _ logoInsertStep_fix doc]

theorem urlTokenAt_join {s u rest : Str} (h : urlTokenAt s = some (u, rest)) :
    u ++ rest = s := by
  simp only [urlTokenAt] at h
  split at h
  · rename_i hp
    split at h
    · exact absurd h (by simp)
    · simp only [Option.some.injEq, Prod.mk.injEq] at h
      obtain ⟨rfl, rfl⟩ := h
      set tok := (s.drop 8).takeWhile (fun c => !isPySpace c) with htok
      obtain ⟨t2, ht⟩ := List.takeWhile_prefix (l := s.drop 8) (p := fun c => !isPySpace c)
      rw [← htok] at ht
      have hdrop : (s.drop 8).drop tok.length = t2 := by
        rw [← ht]
        exact List.drop_left _ _
      rw [hdrop, List.append_assoc, ht]
      have h1 : s = chars "https://" ++ s.drop 8 :=
        eq_append_of_startsWith (p := chars "https://") hp
      exact h1.symm
  · rename_i hp1
    split at h
    · rename_i hp
      split at h
      · exact absurd h (by simp)
      · simp only [Option.some.injEq, Prod.mk.injEq] at h
        obtain ⟨rfl, rfl⟩ := h
        set tok := (s.drop 7).takeWhile (fun c => !isPySpace c) with htok
        obtain ⟨t2, ht⟩ := List.takeWhile_prefix (l := s.drop 7) (p := fun c => !isPySpace c)
        rw [← htok] at ht
        have hdrop : (s.drop 7).drop tok.length = t2 := by
          rw [← ht]
          exact List.drop_left _ _
        rw [hdrop, List.append_assoc, ht]
        have h1 : s = chars "http://" ++ s.drop 7 :=
          eq_append_of_startsWith (p := chars "http://") hp
        exact h1.symm
    · exact absurd h (by simp)

theorem splitUrlsAux_join (fuel : Nat) :
    ∀ (acc s : Str), ((splitUrlsAux fuel acc s).map segStr).flatten = acc.reverse ++ s := by
  induction fuel with
  | zero =>
    intro acc s
    simp only [splitUrlsAux]
    split
    · rename_i hemp
      simp only [List.map_nil, List.flatten_nil]
      rw [List.isEmpty_iff] at hemp
      exact hemp.symm
    · simp [segStr]
  | succ n ih =>
    intro acc s
    cases s with
    | nil =>
      simp only [splitUrlsAux]
      split
      · rename_i hemp
        rw [List.isEmpty_iff] at hemp
        simp [hemp]
      · simp [segStr]
    | cons c cs =>
      simp only [splitUrlsAux]
      cases hma : urlTokenAt (c :: cs) with
      | some p =>
        obtain ⟨u, rest⟩ := p
        have hj : u ++ rest = c :: cs := urlTokenAt_join hma
        by_cases hacc : acc.isEmpty = true
        · rw [List.isEmpty_iff] at hacc
          subst hacc
          simp only [List.isEmpty_nil, if_true, List.nil_append, List.map_cons,
            List.flatten_cons, List.reverse_nil, segStr]
          rw [ih [] rest]
          simp [hj]
        · have hacc2 : acc.isEmpty = false := by simpa using hacc
          simp only [hacc2, Bool.false_eq_true, if_false, List.map_append, List.map_cons,
            List.flatten_append, List.flatten_cons, List.map_nil, List.flatten_nil, segStr]
          rw [ih [] rest]
          simp [hj]
      | none =>
        rw [ih (c :: acc) cs]
        simp

theorem splitUrls_join (s : Str) : ((splitUrls s).map segStr).flatten = s := by
  unfold splitUrls
  rw [splitUrlsAux_join s.length [] s]
  rfl

/-- **C1** — Autolinking misplaces the produced segments.  For the document
body `<p>See http://example.com for details</p>`, the autolink step does
split the text into the segments `"See "`, a link whose href and text are
`"http://example.com"`, and `" for details"` with no characters lost — but
`parent.insert_before(item, text_node)` inserts them immediately before the
*parent* `<p>` element, and the text node is extracted, leaving the `<p>`
empty: the segments do not replace the text node at its own position as the
claim states.  The second part records that the split itself loses and
duplicates nothing: the concatenated segment texts of any text node equal
the original text. -/
theorem c1_autolink_hoists_segments :
    convertUrlsNode
      (.elem "body" [] [.elem "p" [] [.text (chars "See http://example.com for details")]]) =
    ([], .elem "body" []
      [.text (chars "See "),
       aLinkTag (chars "http://example.com"),
       .text (chars " for details"),
       .elem "p" [] []])
    ∧ (∀ s : Str, ((splitUrls s).map segStr).flatten = s) :=
  ⟨rfl, splitUrls_join⟩

/-- Witness for C2 at a concrete conversion state. -/
theorem c2_stylesheet_failure_aborts_witness :
    (convert exampleWorld true true).2.isSome = true
    ∧ (convert exampleWorld true true).1.pandocRan = false
    ∧ (convert exampleWorld true true).1.outputWritten = false :=
  c2_stylesheet_failure_aborts exampleWorld true true rfl rfl rfl rfl

/-- Witness for C3 at a concrete document fragment with one failing image. -/
theorem c3_failed_image_removed_witness :
    processImgList exampleImgEnv []
      ([Node.text (chars "intro")] ++
        Node.elem "img" [("src", chars "http://host/broken.png")] [] :: [Node.elem "p" [] []]) =
      ⟨(processImgList exampleImgEnv
          (processImgList exampleImgEnv [] [Node.text (chars "intro")]).fs [Node.elem "p" [] []]).fs,
       (processImgList exampleImgEnv [] [Node.text (chars "intro")]).fetches + 1
         + (processImgList exampleImgEnv
            (processImgList exampleImgEnv [] [Node.text (chars "intro")]).fs
            [Node.elem "p" [] []]).fetches,
       (processImgList exampleImgEnv [] [Node.text (chars "intro")]).nodes
         ++ (processImgList exampleImgEnv
            (processImgList exampleImgEnv [] [Node.text (chars "intro")]).fs
            [Node.elem "p" [] []]).nodes⟩ :=
  c3_failed_image_removed exampleImgEnv [] [Node.text (chars "intro")] [Node.elem "p" [] []]
    [("src", chars "http://host/broken.png")] (by decide) (by decide) rfl (by decide)

/-- Witness for C4 at a concrete cached asset. -/
theorem c4_cache_hit_witness :
    ensureImage exampleImgEnv [chars "pic.png"] (chars "https://example.com/imgs/pic.png") =
      ([chars "pic.png"], 0,
        some (exampleImgEnv.imagesSubdir ++ '/' ::
          derivedFilename (chars "https://example.com/imgs/pic.png")))
    ∧ ensureImage exampleImgEnv
        (ensureImage exampleImgEnv [chars "pic.png"] (chars "https://example.com/imgs/pic.png")).1
        (chars "https://example.com/imgs/pic.png") =
      ensureImage exampleImgEnv [chars "pic.png"] (chars "https://example.com/imgs/pic.png") :=
  c4_cache_hit exampleImgEnv [chars "pic.png"] (chars "https://example.com/imgs/pic.png")
    (by decide) rfl

/-- Witness for C5 at a concrete source file. -/
theorem c5_toc_title_insertion_witness :
    tocProcess (chars "# Doc\n- [A](#a)") =
      joinNl ((splitLines (chars "# Doc\n- [A](#a)")).take 1 ++
        mkTocTitle (tocLevel (splitLines (chars "# Doc\n- [A](#a)"))) ::
          (splitLines (chars "# Doc\n- [A](#a)")).drop 1)
    ∧ tocProcess (tocProcess (chars "# Doc\n- [A](#a)")) =
        tocProcess (chars "# Doc\n- [A](#a)") :=
  c5_toc_title_insertion (chars "# Doc\n- [A](#a)") 1 (by decide) (by decide)

/-- Witness for C8: the sentinel case and the captured-content case at
concrete sources. -/
theorem c8_description_extraction_witness :
    extractDescription (chars "plain text only") = chars "-"
    ∧ (∃ pre mid post : Str,
        chars "<!-- description: A sample spec -->" =
          pre ++ descToken ++ mid ++ arrowToken ++ post ∧
        containsSub commentOpen pre = true ∧
        containsSub arrowToken mid = false ∧
        extractDescription (chars "<!-- description: A sample spec -->") = pyStrip mid) := by
  constructor
  · exact c8_description_extraction.2.1 (chars "plain text only") (fun a b c d h => by
      have hlen := congrArg List.length h
      simp only [List.length_append] at hlen
      rw [show (chars "plain text only").length = 15 from rfl,
          show commentOpen.length = 4 from rfl,
          show descToken.length = 12 from rfl,
          show arrowToken.length = 3 from rfl] at hlen
      omega)
  · exact c8_description_extraction.2.2 (chars "<!-- description: A sample spec -->")
      (chars "") (chars " ") (chars " A sample spec ") (chars "") (by decide)

/-- Witness for C10 at concrete images: a relative path, a missing `src`,
and the remote OASIS logo. -/
theorem c10_non_external_image_untouched_witness :
    processImgNode exampleImgEnv [] (.elem "img" [("src", chars "images/local.png")] []) =
      ⟨[], 0, [.elem "img" [("src", chars "images/local.png")] []]⟩
    ∧ processImgNode exampleImgEnv [] (.elem "img" [("alt", chars "x")] []) =
      ⟨[], 0, [.elem "img" [("alt", chars "x")] []]⟩
    ∧ processImgNode exampleImgEnv [] (.elem "img"
        [("src", chars "https://docs.oasis-open.org/templates/OASISLogo-v3.0.png")] []) =
      ⟨[], 0, [.elem "img"
        [("src", chars "https://docs.oasis-open.org/templates/OASISLogo-v3.0.png")] []]⟩ :=
  ⟨c10_non_external_image_untouched exampleImgEnv [] [("src", chars "images/local.png")]
    (Or.inl (by decide)),
   c10_non_external_image_untouched exampleImgEnv [] [("alt", chars "x")]
    (Or.inl (by decide)),
   c10_non_external_image_untouched exampleImgEnv []
    [("src", chars "https://docs.oasis-open.org/templates/OASISLogo-v3.0.png")]
    (Or.inr (by decide))⟩

/-- Witness for C6 at concrete bodies without and with an existing logo. -/
theorem c6_logo_insertion_witness :
    addOasisLogo (.elem "body" [] [.elem "p" [] []]) =
      .elem "body" [] (logoImg :: [.elem "p" [] []])
    ∧ addOasisLogo (.elem "body" [] [logoImg]) = .elem "body" [] [logoImg]
    ∧ addOasisLogo
        (.elem "[document]" []
          [.elem "html" [] [.elem "head" [] [], .elem "body" [] [.elem "p" [] []]]]) =
      .elem "[document]" []
        [.elem "html" [] [.elem "head" [] [],
          .elem "body" [] (logoImg :: [.elem "p" [] []])]] :=
  ⟨c6_logo_insertion.1 [] [.elem "p" [] []] (by decide),
   c6_logo_insertion.2.1 [] [logoImg] (by decide),
   c6_logo_insertion.2.2.1 [] [] [] [.elem "p" [] []] (by decide)⟩

end OasisConv
